import Mathlib

/-
Verification of the GQLServer protocol adapter (src/git_backend/*).

The adapter translates GitQL engine results into PostgreSQL wire-protocol
responses.  This file shallowly embeds the adapter's data model and
operations:

* external engine values (gitql-ast `Value`, `DataType`, `GitQLObject`) are
  embedded as inductive types following the shape the spec fixes at the
  interface boundary;
* fallible Rust code returns `Except`; Rust panics (index/unwrap) are
  modelled as the `none` case of an outer `Option`;
* the process-wide statement cache (a `HashMap` behind a mutex) is embedded
  as an association list threaded explicitly through the handlers.
-/

namespace GQLServer

/-- Semantic value types of the external gitql-ast crate (spec section 3:
closed variant over Text, Integer, Float, Boolean, Date, Time, DateTime plus
the unsupported variants caught by the wildcard arm of `encode_column`). -/
inductive DataType
  | Text
  | Integer
  | Float
  | Boolean
  | Date
  | Time
  | DateTime
  | Undefined
  | Null
deriving DecidableEq, Repr

/-- Engine-native typed values (gitql-ast `Value`).  Payloads are opaque to
the adapter; the `Float` payload is kept as its textual form since the
adapter never computes with it. -/
inductive Value
  | Text (s : String)
  | Integer (i : Int)
  | Float (repr : String)
  | Boolean (b : Bool)
  | Date (d : Int)
  | Time (t : String)
  | DateTime (d : Int)
  | Undefined
  | Null
deriving DecidableEq, Repr

/-- One result row: an ordered list of typed values (gitql-ast `Row`). -/
structure Row where
  values : List Value
deriving DecidableEq, Repr

/-- One result group: an ordered list of rows (gitql-ast `Group`). -/
structure Group where
  rows : List Row
deriving DecidableEq, Repr

/-- The engine's raw selected result (gitql-ast `GitQLObject`): shared column
titles plus an ordered list of groups. -/
structure GitQLObject where
  titles : List String
  groups : List Group
deriving DecidableEq, Repr

/-- Modelled from the spec: `GitQLObject::flat` of the external gitql-ast
crate, as fixed by spec section 4.3 step 3 — all groups' rows are
concatenated, in inter-group and intra-group order, into a single group. -/
def GitQLObject.flat (g : GitQLObject) : GitQLObject :=
  ⟨g.titles, [⟨(g.groups.map Group.rows).flatten⟩]⟩

/-- Wire-level scalar types used by the adapter (pgwire `Type`). -/
inductive WireType
  | TEXT
  | INT8
  | FLOAT8
  | BOOL
  | TIME
  | DATE
deriving DecidableEq, Repr

/-- Per-column transfer format (pgwire `FieldFormat`). -/
inductive FieldFormat
  | text
  | binary
deriving DecidableEq, Repr

/-- pgwire `Format::UnifiedText.format_for(index)`: the uniform text format,
for every column index. -/
def formatFor (_index : Nat) : FieldFormat := FieldFormat.text

/-- Wire metadata for one visible column (pgwire `FieldInfo`; the two
always-`None` oid arguments are omitted). -/
structure FieldInfo where
  name : String
  dtype : WireType
  fmt : FieldFormat
deriving DecidableEq, Repr

/-- Modelled from the spec: the static schema map `TABLES_FIELDS_TYPES`
(file `git_backend/git_schema.rs`, declared by `mod git_schema;` but absent
from src/).  Per spec section 6 it is a static partial map from column title
to exactly one semantic type, so it is embedded as an arbitrary such map. -/
def SchemaMap := String → Option DataType

/-- `encode_column` of git_column.rs.  The Rust source indexes
`TABLES_FIELDS_TYPES[string]`, and a `HashMap` index panics when the key is
absent: the panic is the outer `none`.  The inner match mirrors the source's
match over the column's semantic type. -/
def encode_column (schema : SchemaMap) (s : String) (index : Nat) :
    Option (Except String FieldInfo) :=
  match schema s with
  | none => none
  | some DataType.Text => some (.ok ⟨s, .TEXT, formatFor index⟩)
  | some DataType.Integer => some (.ok ⟨s, .INT8, formatFor index⟩)
  | some DataType.Float => some (.ok ⟨s, .FLOAT8, formatFor index⟩)
  | some DataType.Boolean => some (.ok ⟨s, .BOOL, formatFor index⟩)
  | some DataType.Time => some (.ok ⟨s, .TIME, formatFor index⟩)
  | some DataType.Date => some (.ok ⟨s, .DATE, formatFor index⟩)
  | some DataType.DateTime => some (.ok ⟨s, .TIME, formatFor index⟩)
  | some _ => some (.error "Failed to get type of data")

/-- The wire-type mapping exactly as spelled out by the spec (section 4.1):
Text to TEXT, Integer to INT8, Float to FLOAT8, Boolean to BOOL, Time to
TIME, Date to DATE, DateTime to TIME (the deliberate narrowing); every other
semantic type is unmapped.  This is the spec-side definition that
`encode_column` is compared against. -/
def wireTypeOfSpec : DataType → Option WireType
  | DataType.Text => some .TEXT
  | DataType.Integer => some .INT8
  | DataType.Float => some .FLOAT8
  | DataType.Boolean => some .BOOL
  | DataType.Time => some .TIME
  | DataType.Date => some .DATE
  | DataType.DateTime => some .TIME
  | _ => none

/-- One value as placed in a wire row by `encode_row`: the variants listed in
the source's match are passed to the encoder, everything else is encoded as
an explicit SQL null (`&None::<i8>`), i.e. `none` here. -/
def encodeValue : Value → Option Value
  | Value.Undefined => none
  | Value.Null => none
  | v => some v

/-- `encode_row` of git_row.rs: it iterates `groups.groups[0].rows`
unconditionally, so a result object with zero groups panics (the outer
`none`); otherwise each row of the first group is encoded in order.  The
`fieldsInfo` argument only feeds the per-column format (uniformly text), so
it does not shape the output. -/
def encode_row (groups : GitQLObject) (_fieldsInfo : List FieldInfo) :
    Option (List (List (Option Value))) :=
  match groups.groups with
  | [] => none
  | g0 :: _ => some (g0.rows.map (fun r => r.values.map encodeValue))

/-- The index-collection loop of `do_query` (simple) and
`do_describe_portal`: iterate the titles with their indexes (starting at
`k`), keeping each index whose title occurs in the hidden selection.  The
source builds the list with `indexes.insert(0, index)`, i.e. the ascending
scan is accumulated in reverse; this helper is the ascending scan. -/
def hiddenIdxAsc (hidden : List String) : List String → Nat → List Nat
  | [], _ => []
  | t :: ts, k =>
    if t ∈ hidden then k :: hiddenIdxAsc hidden ts (k + 1)
    else hiddenIdxAsc hidden ts (k + 1)

/-- The `indexes` vector exactly as the source leaves it: positions of
hidden titles, from highest index to lowest (the ascending enumeration with
each match inserted at the front). -/
def hiddenIndexes (titles hidden : List String) : List Nat :=
  (hiddenIdxAsc hidden titles 0).reverse

/-- Rust `Vec::remove(i)`: removes and shifts, panicking (here `none`) when
`i` is out of bounds. -/
def vecRemove (l : List α) (i : Nat) : Option (List α) :=
  if i < l.length then some (l.eraseIdx i) else none

/-- Repeated `Vec::remove` over a list of indexes, left to right. -/
def removeAll (l : List α) : List Nat → Option (List α)
  | [] => some l
  | i :: is =>
    match vecRemove l i with
    | none => none
    | some l2 => removeAll l2 is

/-- The inner row loop of the hidden-column removal: `row.values.remove(index)`
for every row of the first group. -/
def rowsRemoveValues : List Row → Nat → Option (List Row)
  | [], _ => some []
  | r :: rs, i =>
    match vecRemove r.values i, rowsRemoveValues rs i with
    | some v, some rest => some (⟨v⟩ :: rest)
    | _, _ => none

/-- One iteration of the removal loop: `groups.titles.remove(index)` followed
by `row.values.remove(index)` for every row of `groups.groups[0]`.  Indexing
`groups[0]` of a zero-group object panics (`none`). -/
def removeStep (obj : GitQLObject) (i : Nat) : Option GitQLObject :=
  match vecRemove obj.titles i with
  | none => none
  | some ts =>
    match obj.groups with
    | [] => none
    | g0 :: rest =>
      match rowsRemoveValues g0.rows i with
      | none => none
      | some rs => some ⟨ts, ⟨rs⟩ :: rest⟩

/-- The whole `for index in indexes` removal loop. -/
def removeLoop (obj : GitQLObject) : List Nat → Option GitQLObject
  | [] => some obj
  | i :: is =>
    match removeStep obj i with
    | none => none
    | some o => removeLoop o is

/-- The result projection shared by the simple-query handler and
`do_describe_portal` (mod.rs): collect the hidden indexes from the title
list, flatten when more than one group is present, then run the removal
loop. -/
def project (obj : GitQLObject) (hidden : List String) : Option GitQLObject :=
  let indexes := hiddenIndexes obj.titles hidden
  let obj2 := if obj.groups.length > 1 then obj.flat else obj
  removeLoop obj2 indexes

/-- Specification-side description of what hidden-column removal does to one
positional list: walking the titles and the list in lockstep, drop every
position whose title is hidden. -/
def selectVisible (hidden : List String) : List String → List α → List α
  | [], v => v
  | _ :: _, [] => []
  | t :: ts, x :: xs =>
    if t ∈ hidden then selectVisible hidden ts xs
    else x :: selectVisible hidden ts xs

/-- The removal loop restricted to the rows: repeated
`rowsRemoveValues` over the index list, left to right. -/
def rowsRemoveAll : List Row → List Nat → Option (List Row)
  | rows, [] => some rows
  | rows, i :: is =>
    match rowsRemoveValues rows i with
    | none => none
    | some rs => rowsRemoveAll rs is

theorem hiddenIdxAsc_shift (hidden ts : List String) (k : Nat) :
    hiddenIdxAsc hidden ts (k + 1) = (hiddenIdxAsc hidden ts k).map (· + 1) := by
  induction ts generalizing k with
  | nil => rfl
  | cons t ts ih =>
    by_cases h : t ∈ hidden <;>
      simp [hiddenIdxAsc, h, ih (k + 1), ih k]

theorem hiddenIndexes_cons (t : String) (ts hidden : List String) :
    hiddenIndexes (t :: ts) hidden =
      (hiddenIndexes ts hidden).map (· + 1) ++ (if t ∈ hidden then [0] else []) := by
  have h1 : hiddenIdxAsc hidden ts 1 = (hiddenIdxAsc hidden ts 0).map (· + 1) :=
    hiddenIdxAsc_shift hidden ts 0
  by_cases h : t ∈ hidden <;>
    simp [hiddenIndexes, hiddenIdxAsc, h, h1, List.map_reverse]

theorem vecRemove_cons_succ (a : α) (l : List α) (i : Nat) :
    vecRemove (a :: l) (i + 1) = (vecRemove l i).map (a :: ·) := by
  simp only [vecRemove, List.length_cons, Nat.add_lt_add_iff_right,
    List.eraseIdx_cons_succ]
  by_cases h : i < l.length <;> simp [h]

theorem removeAll_map_succ (a : α) (l : List α) (is : List Nat) :
    removeAll (a :: l) (is.map (· + 1)) = (removeAll l is).map (a :: ·) := by
  induction is generalizing a l with
  | nil => rfl
  | cons i is ih =>
    simp only [List.map_cons, removeAll, vecRemove_cons_succ]
    cases h : vecRemove l i with
    | none => rfl
    | some l2 => simp [ih]

theorem removeAll_append (l : List α) (is js : List Nat) :
    removeAll l (is ++ js) = (removeAll l is).bind (fun l2 => removeAll l2 js) := by
  induction is generalizing l with
  | nil => rfl
  | cons i is ih =>
    simp only [List.cons_append, removeAll]
    cases vecRemove l i with
    | none => rfl
    | some l2 => simp [ih]

theorem removeAll_hiddenIndexes (hidden : List String) (t : List String) (v : List α)
    (hlen : v.length = t.length) :
    removeAll v (hiddenIndexes t hidden) = some (selectVisible hidden t v) := by
  induction t generalizing v with
  | nil => simp [hiddenIndexes, hiddenIdxAsc, removeAll, selectVisible]
  | cons ti ts ih =>
    cases v with
    | nil => simp at hlen
    | cons x xs =>
      have hlen' : xs.length = ts.length := by simpa using hlen
      rw [hiddenIndexes_cons, removeAll_append, removeAll_map_succ, ih xs hlen']
      by_cases h : ti ∈ hidden <;>
        simp [h, selectVisible, removeAll, vecRemove]

theorem selectVisible_self (hidden t : List String) :
    selectVisible hidden t t = t.filter (fun x => decide (x ∉ hidden)) := by
  induction t with
  | nil => rfl
  | cons x xs ih => by_cases h : x ∈ hidden <;> simp [selectVisible, h, ih]

theorem selectVisible_sublist (hidden : List String) (t : List String) (v : List α) :
    (selectVisible hidden t v).Sublist v := by
  induction t generalizing v with
  | nil => exact List.Sublist.refl v
  | cons ti ts ih =>
    cases v with
    | nil => exact List.Sublist.refl []
    | cons x xs =>
      by_cases h : ti ∈ hidden <;> simp only [selectVisible, h, if_pos, if_neg]
      · exact (ih xs).cons x
      · exact (ih xs).cons₂ x

theorem filter_not_hidden_length (hidden t : List String) :
    (t.filter (fun x => decide (x ∉ hidden))).length
      = t.length - (t.filter (fun x => decide (x ∈ hidden))).length := by
  induction t with
  | nil => rfl
  | cons x xs ih =>
    have hf : (xs.filter (fun x => decide (x ∈ hidden))).length ≤ xs.length :=
      xs.length_filter_le _
    by_cases h : x ∈ hidden <;> simp [h] at ih hf ⊢ <;> omega

theorem removeLoop_single (t : List String) (rows : List Row) (is : List Nat) :
    removeLoop ⟨t, [⟨rows⟩]⟩ is =
      (removeAll t is).bind (fun t2 =>
        (rowsRemoveAll rows is).map (fun rs2 => ⟨t2, [⟨rs2⟩]⟩)) := by
  induction is generalizing t rows with
  | nil => rfl
  | cons i is ih =>
    cases h1 : vecRemove t i with
    | none => simp [removeLoop, removeStep, removeAll, h1]
    | some ts =>
      cases h2 : rowsRemoveValues rows i with
      | none =>
        simp only [removeLoop, removeStep, removeAll, rowsRemoveAll, h1, h2]
        cases removeAll ts is <;> rfl
      | some rs =>
        simp [removeLoop, removeStep, removeAll, rowsRemoveAll, h1, h2, ih]

theorem rowsRemoveAll_nil_rows (is : List Nat) : rowsRemoveAll [] is = some [] := by
  induction is with
  | nil => rfl
  | cons i is ih => simpa [rowsRemoveAll, rowsRemoveValues] using ih

theorem rowsRemoveAll_cons (r : Row) (rs : List Row) (is : List Nat) :
    rowsRemoveAll (r :: rs) is =
      (removeAll r.values is).bind (fun v =>
        (rowsRemoveAll rs is).map (fun rest => ⟨v⟩ :: rest)) := by
  induction is generalizing r rs with
  | nil => rfl
  | cons i is ih =>
    cases h1 : vecRemove r.values i with
    | none => simp [rowsRemoveAll, rowsRemoveValues, removeAll, h1]
    | some v =>
      cases h2 : rowsRemoveValues rs i with
      | none =>
        simp only [rowsRemoveAll, rowsRemoveValues, removeAll, h1, h2]
        cases removeAll v is <;> rfl
      | some rest =>
        simp [rowsRemoveAll, rowsRemoveValues, removeAll, h1, h2, ih]

theorem rowsRemoveAll_hiddenIndexes (hidden : List String) (t : List String)
    (rows : List Row) (har : ∀ r ∈ rows, r.values.length = t.length) :
    rowsRemoveAll rows (hiddenIndexes t hidden) =
      some (rows.map (fun r => ⟨selectVisible hidden t r.values⟩)) := by
  induction rows with
  | nil => exact rowsRemoveAll_nil_rows _
  | cons r rs ih =>
    rw [rowsRemoveAll_cons,
      removeAll_hiddenIndexes hidden t r.values (har r (List.mem_cons_self r rs)),
      ih (fun r hr => har r (List.mem_cons_of_mem _ hr))]
    rfl

/-- Full characterization of the projection of mod.rs on a well-formed raw
result: the titles become the non-hidden titles in order, and the rows of
all groups are concatenated and column-projected in order. -/
theorem project_spec (t : List String) (hidden : List String) (gs : List Group)
    (hne : gs ≠ [])
    (har : ∀ g ∈ gs, ∀ r ∈ g.rows, r.values.length = t.length) :
    project ⟨t, gs⟩ hidden =
      some ⟨t.filter (fun x => decide (x ∉ hidden)),
        [⟨((gs.map Group.rows).flatten).map
            (fun r => ⟨selectVisible hidden t r.values⟩)⟩]⟩ := by
  rcases gs with _ | ⟨g, gs'⟩
  · exact absurd rfl hne
  rcases gs' with _ | ⟨g2, gs''⟩
  · have hlen : ¬ (GitQLObject.mk t [g]).groups.length > 1 := by simp
    unfold project
    rw [if_neg hlen]
    have hrows : ∀ r ∈ g.rows, r.values.length = t.length :=
      har g (List.mem_cons_self g [])
    rw [show (GitQLObject.mk t [g]) = ⟨t, [⟨g.rows⟩]⟩ from rfl,
      removeLoop_single, removeAll_hiddenIndexes hidden t t rfl,
      rowsRemoveAll_hiddenIndexes hidden t g.rows hrows, selectVisible_self]
    simp
  · have hlen : (GitQLObject.mk t (g :: g2 :: gs'')).groups.length > 1 := by
      simp [Nat.succ_lt_succ]
    unfold project
    rw [if_pos hlen]
    have harf : ∀ r ∈ ((g :: g2 :: gs'').map Group.rows).flatten,
        r.values.length = t.length := by
      intro r hr
      rcases List.mem_flatten.mp hr with ⟨l, hl, hrl⟩
      rcases List.mem_map.mp hl with ⟨gg, hgg, rfl⟩
      exact har gg hgg r hrl
    rw [show (GitQLObject.mk t (g :: g2 :: gs'')).flat
        = ⟨t, [⟨((g :: g2 :: gs'').map Group.rows).flatten⟩]⟩ from rfl,
      removeLoop_single, removeAll_hiddenIndexes hidden t t rfl,
      rowsRemoveAll_hiddenIndexes hidden t _ harf, selectVisible_self]
    rfl

theorem hiddenIdxAsc_bounds (hidden ts : List String) (k : Nat) :
    (hiddenIdxAsc hidden ts k).Pairwise (· < ·) ∧
      ∀ i ∈ hiddenIdxAsc hidden ts k, k ≤ i := by
  induction ts generalizing k with
  | nil => exact ⟨List.Pairwise.nil, by intro i hi; cases hi⟩
  | cons t ts ih =>
    obtain ⟨hp, hb⟩ := ih (k + 1)
    by_cases h : t ∈ hidden
    · simp only [hiddenIdxAsc, if_pos h]
      refine ⟨List.Pairwise.cons ?_ hp, ?_⟩
      · exact fun i hi => lt_of_lt_of_le (Nat.lt_succ_self k) (hb i hi)
      · intro i hi
        rcases List.mem_cons.mp hi with rfl | hi
        · exact Nat.le_refl i
        · exact Nat.le_of_succ_le (hb i hi)
    · simp only [hiddenIdxAsc, if_neg h]
      exact ⟨hp, fun i hi => Nat.le_of_succ_le (hb i hi)⟩

/-- The index list the removal loop consumes is strictly decreasing: the
positions are removed from highest index to lowest. -/
theorem hiddenIndexes_sorted (titles hidden : List String) :
    (hiddenIndexes titles hidden).Pairwise (· > ·) := by
  unfold hiddenIndexes
  exact List.pairwise_reverse.mpr (hiddenIdxAsc_bounds hidden titles 0).1

/-- Rust `str::split(';').next().unwrap()` applied to the characters: the
prefix before the first `';'` (the whole list when there is none). -/
def takeUntilSemi : List Char → List Char
  | [] => []
  | c :: cs => if c = ';' then [] else c :: takeUntilSemi cs

/-- The statement text truncated at the first `';'`
(`query.split(';').next().unwrap()` in mod.rs). -/
def firstStatement (s : String) : String := ⟨takeUntilSemi s.data⟩

/-- Rust `to_lowercase` restricted to the ASCII range the keyword checks
use, character by character. -/
def strToLower (s : String) : List Char := s.data.map Char.toLower

/-- Rust `to_uppercase` restricted to the ASCII range the keyword checks
use, character by character. -/
def strToUpper (s : String) : List Char := s.data.map Char.toUpper

/-- Rust `str::starts_with(kw)` on the already-case-mapped characters. -/
def startsWithKw (s kw : List Char) : Bool := kw.isPrefixOf s

/-- The statement cache (`query_cache: Arc<Mutex<HashMap<String, GitQLObject>>>`),
embedded as an association list; insertion at the front with first-match
lookup models `HashMap::insert` overwriting. -/
def Cache := List (String × GitQLObject)

def cacheGet : List (String × GitQLObject) → String → Option GitQLObject
  | [], _ => none
  | (k, v) :: rest, q => if k = q then some v else cacheGet rest q

def cacheInsert (c : List (String × GitQLObject)) (k : String) (v : GitQLObject) :
    List (String × GitQLObject) :=
  (k, v) :: c

/-- Outcome of the external front end and engine
(tokenize, parse, `engine::evaluate`) on one statement text, as consumed by
the handlers: a stage error with its message, a mutation acknowledgment
(any `EvaluationResult` other than `SelectedGroups`), or selected groups
with the hidden-selection title list. -/
inductive EngineOutcome
  | err (msg : String)
  | acknowledged
  | selected (groups : GitQLObject) (hidden : List String)

/-- The whole external pipeline as one function from statement text to
outcome; the handlers are parameterized over it. -/
def Engine := String → EngineOutcome

/-- The field-descriptor loop shared by both handlers: enumerate the titles
from index `k`, skip a column whose `encode_column` errs (`continue`),
propagate a panic (`none`), and collect the rest in order. -/
def collectFieldsFrom (schema : SchemaMap) : List String → Nat → Option (List FieldInfo)
  | [], _ => some []
  | t :: ts, i =>
    match encode_column schema t i with
    | none => none
    | some (.error _) => collectFieldsFrom schema ts (i + 1)
    | some (.ok f) =>
      match collectFieldsFrom schema ts (i + 1) with
      | none => none
      | some fs => some (f :: fs)

def collectFields (schema : SchemaMap) (titles : List String) : Option (List FieldInfo) :=
  collectFieldsFrom schema titles 0

/-- A wire response of the handlers: a query response (descriptors plus an
encoded row stream) or an execution acknowledgment tag with its
affected-row count. -/
inductive WireResponse
  | queryResp (fields : List FieldInfo) (rows : List (List (Option Value)))
  | ack (tag : String) (rows : Nat)
deriving DecidableEq, Repr

/-- `do_describe_portal` of the `ExtendedQueryHandler` impl (mod.rs): a
`set`-prefixed statement short-circuits to an empty response; otherwise the
statement is truncated at the first `';'`, evaluated, projected, its field
descriptors collected, and the projected object is inserted into the cache
under the truncated text.  Result: `none` is a panic, `Except.error` a
protocol error, `Except.ok` the descriptor list with the updated cache.
The `validate_git_repositories` call is omitted: in mod.rs it always
returns `Ok` (invalid repositories are skipped), so its `unwrap` cannot
panic, and its output feeds only the external engine. -/
def do_describe_portal (engine : Engine) (schema : SchemaMap)
    (cache : List (String × GitQLObject)) (stmt : String) :
    Option (Except String (List FieldInfo × List (String × GitQLObject))) :=
  if startsWithKw (strToLower stmt) "set".data then some (.ok ([], cache))
  else
    let query := firstStatement stmt
    match engine query with
    | .err m => some (.error m)
    | .acknowledged => some (.ok ([], cache))
    | .selected groups hidden =>
      match project groups hidden with
      | none => none
      | some res =>
        match collectFields schema res.titles with
        | none => none
        | some fs => some (.ok (fs, cacheInsert cache query res))

/-- `do_query` of the `ExtendedQueryHandler` impl (mod.rs): a `set`-prefixed
statement acknowledges immediately; otherwise the cache is consulted with
the portal's verbatim statement text — a hit re-derives the descriptors and
encodes the cached rows, a miss acknowledges with `Tag::new("OK").with_rows(1)`.
No engine parameter appears: Execute performs no tokenization, parsing or
evaluation. -/
def ext_do_query (schema : SchemaMap) (cache : List (String × GitQLObject))
    (stmt : String) : Option (Except String WireResponse) :=
  if startsWithKw (strToLower stmt) "set".data then some (.ok (.ack "OK" 1))
  else
    match cacheGet cache stmt with
    | none => some (.ok (.ack "OK" 1))
    | some groups =>
      match collectFields schema groups.titles with
      | none => none
      | some fs =>
        match encode_row groups fs with
        | none => none
        | some rows => some (.ok (.queryResp fs rows))

/-- `do_query` of the `SimpleQueryHandler` impl (mod.rs): `DEALLOCATE`
(upper-cased prefix check on the untruncated text) acknowledges; otherwise
the text is truncated at the first `';'`, run through the external
pipeline, and a selected result is projected and encoded while any other
result acknowledges with one affected row.  The source wraps the single
response in a `Vec`; the singleton wrapper is dropped here. -/
def simple_do_query (engine : Engine) (schema : SchemaMap) (q : String) :
    Option (Except String WireResponse) :=
  if startsWithKw (strToUpper q) "DEALLOCATE".data then some (.ok (.ack "OK" 1))
  else
    match engine (firstStatement q) with
    | .err m => some (.error m)
    | .acknowledged => some (.ok (.ack "OK" 1))
    | .selected groups hidden =>
      match project groups hidden with
      | none => none
      | some res =>
        match collectFields schema res.titles with
        | none => none
        | some fs =>
          match encode_row res fs with
          | none => none
          | some rows => some (.ok (.queryResp fs rows))

/-- Rust `str::split(' ')` on the characters: split at every single space,
keeping empty pieces (the source skips empty tokens afterwards via
`chars().nth(0)`). -/
def splitSpaces : List Char → List (List Char)
  | [] => [[]]
  | c :: cs =>
    if c = ' ' then [] :: splitSpaces cs
    else
      match splitSpaces cs with
      | [] => [[c]]
      | t :: rest => (c :: t) :: rest

/-- Digit accumulation for `str::parse::<usize>`; `none` on a non-digit. -/
def digitsVal : List Char → Nat → Option Nat
  | [], acc => some acc
  | c :: cs, acc =>
    if c.isDigit then digitsVal cs (acc * 10 + (c.toNat - 48)) else none

/-- Rust `str::parse::<usize>`: an optional leading `'+'` followed by a
non-empty digit run.  (usize overflow is ignored: an overflowing literal
fails in Rust at the parse `unwrap` and here at the out-of-range parameter
lookup, the same observable panic.) -/
def parseUsize : List Char → Option Nat
  | [] => none
  | '+' :: rest =>
    match rest with
    | [] => none
    | _ => digitsVal rest 0
  | s => digitsVal s 0

/-- `get_param` of parameter.rs: `portal.statement.parameter_types.get(i).unwrap()`
followed by `portal.parameter::<String>(i, ..).unwrap()`.  The portal's
bound parameters are embedded as a list of already-decoded optional strings
(a `none` entry is a bound SQL null); an out-of-range index is the `unwrap`
panic, the outer `none`. -/
def get_param (params : List (Option String)) (i : Nat) : Option (Option String) :=
  params[i]?

/-- Per-token work of `make_qeury`'s loop body, fused over the token list:
an empty token is skipped; a token starting with `'$'` has its remaining
characters parsed as a 1-based index (parse failure and the `0 - 1`
underflow are panics) and is replaced by the bound parameter, an absent
parameter value by the empty string; any other token is kept; every
processed token is followed by one space. -/
def substTokens (params : List (Option String)) : List (List Char) → Option String
  | [] => some ""
  | tok :: rest =>
    match tok with
    | [] => substTokens params rest
    | c :: cs =>
      let piece? : Option String :=
        if c = '$' then
          match parseUsize cs with
          | none => none
          | some i =>
            if i = 0 then none
            else
              match get_param params (i - 1) with
              | none => none
              | some none => some ""
              | some (some p) => some p
        else some ⟨tok⟩
      match piece? with
      | none => none
      | some piece =>
        match substTokens params rest with
        | none => none
        | some r => some (piece ++ " " ++ r)

/-- `make_qeury` of parameter.rs: split the portal's statement on spaces and
substitute each `$n` token from the portal's parameter list. -/
def make_qeury (params : List (Option String)) (input : String) : Option String :=
  substTokens params (splitSpaces input.data)

/-! Concrete fixtures used by the witness theorems.  The schema mirrors the
spec's concrete scenario (section 8): a Text column `name`, an Integer
column `size`, plus a column of unmapped semantic type and everything else
absent. -/

def schemaW : SchemaMap := fun s =>
  if s = "name" then some DataType.Text
  else if s = "size" then some DataType.Integer
  else if s = "odd" then some DataType.Undefined
  else none

def objW : GitQLObject := ⟨["name"], [⟨[⟨[Value.Text "a"]⟩]⟩]⟩

def engineW : Engine := fun _ => .selected objW []

/-- C4: for a column title mapped by the schema, `encode_column` follows the
spec's fixed wire-type table — Text to TEXT, Integer to INT8, Float to
FLOAT8, Boolean to BOOL, Time to TIME, Date to DATE, DateTime to TIME (the
deliberate narrowing) — with the uniform text transfer format and no error;
every other semantic type yields the type-resolution error. -/
theorem encode_column_wire_mapping (schema : SchemaMap) (t : String) (i : Nat)
    (dt : DataType) (h : schema t = some dt) :
    encode_column schema t i = some (
      match wireTypeOfSpec dt with
      | some w => .ok ⟨t, w, .text⟩
      | none => .error "Failed to get type of data") := by
  cases dt <;> simp [encode_column, h, wireTypeOfSpec, formatFor]

/-- Witness for C4 at the concrete schema: the `name` column is Text and is
encoded with wire type TEXT. -/
theorem encode_column_wire_mapping_witness :
    schemaW "name" = some DataType.Text ∧
      encode_column schemaW "name" 0 = some (.ok ⟨"name", .TEXT, .text⟩) :=
  ⟨rfl, encode_column_wire_mapping schemaW "name" 0 DataType.Text rfl⟩

/-- C9: `encode_column` panics (the `HashMap` index on `TABLES_FIELDS_TYPES`)
exactly on titles absent from the static schema, and returns a result (Ok
or Err) for every title the schema maps. -/
theorem encode_column_total_on_schema (schema : SchemaMap) (t : String) (i : Nat) :
    (encode_column schema t i = none ↔ schema t = none) ∧
      (∀ dt, schema t = some dt → (encode_column schema t i).isSome) := by
  constructor
  · constructor
    · intro h
      cases hs : schema t with
      | none => rfl
      | some dt => cases dt <;> simp [encode_column, hs] at h
    · intro h; simp [encode_column, h]
  · intro dt h; cases dt <;> simp [encode_column, h]

/-- Witness for C9: a title outside the concrete schema makes
`encode_column` panic. -/
theorem encode_column_total_on_schema_witness :
    encode_column schemaW "zzz" 0 = none ∧ schemaW "zzz" = none :=
  ⟨(encode_column_total_on_schema schemaW "zzz" 0).1.mpr rfl, rfl⟩

/-- C10: `encode_row` and each removal-loop iteration index the first group
unconditionally: on a zero-group object both panic (no empty row stream is
produced), while with at least one group `encode_row` streams exactly the
first group's rows. -/
theorem encode_row_first_group (obj : GitQLObject) (fs : List FieldInfo)
    (i : Nat) (is : List Nat) :
    (obj.groups = [] →
      encode_row obj fs = none ∧ removeLoop obj (i :: is) = none) ∧
    (∀ g rest, obj.groups = g :: rest →
      encode_row obj fs = some (g.rows.map (fun r => r.values.map encodeValue))) := by
  constructor
  · intro h
    refine ⟨by simp [encode_row, h], ?_⟩
    have hstep : removeStep obj i = none := by
      unfold removeStep
      cases hv : vecRemove obj.titles i with
      | none => rfl
      | some ts => simp [h]
    simp [removeLoop, hstep]
  · intro g rest h
    simp [encode_row, h]

/-- Witness for C10: the zero-group object panics in both places, and a
one-group object streams its rows. -/
theorem encode_row_first_group_witness :
    (encode_row ⟨["name"], []⟩ [] = none ∧
      removeLoop ⟨["name"], []⟩ [0] = none) ∧
    encode_row objW [] = some [[some (Value.Text "a")]] := by
  refine ⟨(encode_row_first_group ⟨["name"], []⟩ [] 0 [] ).1 rfl, ?_⟩
  exact (encode_row_first_group objW [] 0 []).2 ⟨[⟨[Value.Text "a"]⟩]⟩ [] rfl

theorem inter_eq_filter (t hidden : List String) :
    t.inter hidden = t.filter (fun x => decide (x ∈ hidden)) := by
  simp [List.inter, List.elem_eq_mem]

theorem selectVisible_nil_hidden (t : List String) (v : List α)
    (h : v.length = t.length) : selectVisible [] t v = v := by
  induction t generalizing v with
  | nil => rfl
  | cons ti ts ih =>
    cases v with
    | nil => rfl
    | cons x xs => simp [selectVisible, ih xs (by simpa using h)]

/-- C3: on a well-formed raw selected result the projection removes the
hidden positions from highest index to lowest; afterwards the visible
title list is the non-hidden titles in order, its length is the raw length
minus the number of raw titles lying in the hidden set, no hidden title
survives, and every row keeps exactly its values at non-hidden positions
in their relative order (`selectVisible` is a sublist selection). -/
theorem projection_hidden_removal (obj : GitQLObject) (hidden : List String)
    (hne : obj.groups ≠ [])
    (har : ∀ g ∈ obj.groups, ∀ r ∈ g.rows, r.values.length = obj.titles.length) :
    ∃ res, project obj hidden = some res ∧
      res.titles = obj.titles.filter (fun x => decide (x ∉ hidden)) ∧
      res.titles.length = obj.titles.length - (obj.titles.inter hidden).length ∧
      (∀ x ∈ res.titles, x ∉ hidden) ∧
      (hiddenIndexes obj.titles hidden).Pairwise (· > ·) ∧
      res.groups = [⟨((obj.groups.map Group.rows).flatten).map
        (fun r => ⟨selectVisible hidden obj.titles r.values⟩)⟩] ∧
      ∀ v : List Value, (selectVisible hidden obj.titles v).Sublist v := by
  refine ⟨_, project_spec obj.titles hidden obj.groups hne har, rfl, ?_, ?_, ?_, rfl, ?_⟩
  · rw [inter_eq_filter]
    exact filter_not_hidden_length hidden obj.titles
  · intro x hx
    have := List.of_mem_filter hx
    simpa using this
  · exact hiddenIndexes_sorted obj.titles hidden
  · exact fun v => selectVisible_sublist hidden obj.titles v

/-- Witness for C3 at the spec's hidden-column scenario: titles
`["author","commit_hash"]`, hidden set `{"commit_hash"}`, one row
`("alice","deadbeef")`. -/
theorem projection_hidden_removal_witness :
    (∃ res, project ⟨["author", "commit_hash"],
          [⟨[⟨[Value.Text "alice", Value.Text "deadbeef"]⟩]⟩]⟩ ["commit_hash"] = some res ∧
        res.titles = ["author", "commit_hash"].filter
          (fun x => decide (x ∉ ["commit_hash"])) ∧
        res.titles.length = (["author", "commit_hash"] : List String).length -
          ((["author", "commit_hash"] : List String).inter ["commit_hash"]).length ∧
        (∀ x ∈ res.titles, x ∉ ["commit_hash"]) ∧
        (hiddenIndexes ["author", "commit_hash"] ["commit_hash"]).Pairwise (· > ·) ∧
        res.groups = [⟨(([⟨[⟨[Value.Text "alice", Value.Text "deadbeef"]⟩]⟩] :
            List Group).map Group.rows).flatten.map
          (fun r => ⟨selectVisible ["commit_hash"] ["author", "commit_hash"] r.values⟩)⟩] ∧
        ∀ v : List Value,
          (selectVisible ["commit_hash"] ["author", "commit_hash"] v).Sublist v) ∧
      project ⟨["author", "commit_hash"],
          [⟨[⟨[Value.Text "alice", Value.Text "deadbeef"]⟩]⟩]⟩ ["commit_hash"] =
        some ⟨["author"], [⟨[⟨[Value.Text "alice"]⟩]⟩]⟩ :=
  ⟨projection_hidden_removal _ _ (by decide) (by decide), by decide⟩

/-- C5: the projection turns every multi-group result into the single
concatenation, in inter- and intra-group order, of all groups' rows (each
row column-projected), and leaves a single-group result unchanged when
nothing is hidden. -/
theorem projection_flattens (obj : GitQLObject) (hidden : List String)
    (hne : obj.groups ≠ [])
    (har : ∀ g ∈ obj.groups, ∀ r ∈ g.rows, r.values.length = obj.titles.length) :
    (∃ res, project obj hidden = some res ∧
      res.groups = [⟨((obj.groups.map Group.rows).flatten).map
        (fun r => ⟨selectVisible hidden obj.titles r.values⟩)⟩]) ∧
    (∀ g, obj.groups = [g] → project obj [] = some obj) := by
  constructor
  · exact ⟨_, project_spec obj.titles hidden obj.groups hne har, rfl⟩
  · intro g hg
    have hrows : ∀ r ∈ ((obj.groups.map Group.rows).flatten),
        (⟨selectVisible [] obj.titles r.values⟩ : Row) = r := by
      intro r hr
      rcases List.mem_flatten.mp hr with ⟨l, hl, hrl⟩
      rcases List.mem_map.mp hl with ⟨gg, hgg, rfl⟩
      rw [selectVisible_nil_hidden obj.titles r.values (har gg hgg r hrl)]
    have h2 : ((obj.groups.map Group.rows).flatten).map
        (fun r => (⟨selectVisible [] obj.titles r.values⟩ : Row))
        = (obj.groups.map Group.rows).flatten := by
      rw [List.map_congr_left hrows]; simp
    have h3 : (obj.groups.map Group.rows).flatten = g.rows := by rw [hg]; simp
    have h4 : obj.titles.filter (fun x => decide (x ∉ ([] : List String)))
        = obj.titles := by simp
    rw [project_spec obj.titles [] obj.groups hne har, h2, h3, h4,
      show (⟨g.rows⟩ : Group) = g from rfl, ← hg]

/-- Witness for C5 at the claim's example: groups `[g1, g2]` with rows
`[a, b]` and `[c, d]` flatten to exactly `[a, b, c, d]`. -/
theorem projection_flattens_witness :
    (∃ res, project ⟨["name"], [⟨[⟨[Value.Text "a"]⟩, ⟨[Value.Text "b"]⟩]⟩,
          ⟨[⟨[Value.Text "c"]⟩, ⟨[Value.Text "d"]⟩]⟩]⟩ [] = some res ∧
        res.groups = [⟨((([⟨[⟨[Value.Text "a"]⟩, ⟨[Value.Text "b"]⟩]⟩,
            ⟨[⟨[Value.Text "c"]⟩, ⟨[Value.Text "d"]⟩]⟩] : List Group).map
              Group.rows).flatten).map
          (fun r => ⟨selectVisible [] ["name"] r.values⟩)⟩]) ∧
      project ⟨["name"], [⟨[⟨[Value.Text "a"]⟩, ⟨[Value.Text "b"]⟩]⟩,
          ⟨[⟨[Value.Text "c"]⟩, ⟨[Value.Text "d"]⟩]⟩]⟩ [] =
        some ⟨["name"], [⟨[⟨[Value.Text "a"]⟩, ⟨[Value.Text "b"]⟩,
          ⟨[Value.Text "c"]⟩, ⟨[Value.Text "d"]⟩]⟩]⟩ :=
  ⟨(projection_flattens _ [] (by decide) (by decide)).1, by decide⟩

/-- The per-title outcome of the descriptor loop when no panic occurs: the
descriptor when `encode_column` succeeds, `none` when it errs.  The index
argument of `encode_column` only feeds the constant text format, so index 0
is representative. -/
def okField (schema : SchemaMap) (t : String) : Option FieldInfo :=
  match encode_column schema t 0 with
  | some (.ok f) => some f
  | _ => none

theorem okField_name (schema : SchemaMap) (u : String) (f : FieldInfo)
    (h : okField schema u = some f) : f.name = u := by
  revert h
  unfold okField
  cases hs : schema u with
  | none => simp [encode_column, hs]
  | some dt =>
    cases dt <;> simp [encode_column, hs] <;> rintro rfl <;> rfl

theorem collectFieldsFrom_eq (schema : SchemaMap) (titles : List String) (k : Nat)
    (hdom : ∀ t ∈ titles, (schema t).isSome) :
    collectFieldsFrom schema titles k = some (titles.filterMap (okField schema)) := by
  induction titles generalizing k with
  | nil => rfl
  | cons t ts ih =>
    have hk := hdom t (List.mem_cons_self t ts)
    have ihk := ih (k + 1) (fun u hu => hdom u (List.mem_cons_of_mem _ hu))
    cases hs : schema t with
    | none => rw [hs] at hk; simp at hk
    | some dt =>
      cases dt <;>
        simp [collectFieldsFrom, encode_column, hs, okField, formatFor,
          List.filterMap_cons, ihk]

theorem not_mem_filterMap_okField (schema : SchemaMap) (titles : List String)
    (t : String) (hbad : okField schema t = none) :
    t ∉ (titles.filterMap (okField schema)).map FieldInfo.name := by
  intro hmem
  rcases List.mem_map.mp hmem with ⟨f, hf, hname⟩
  rcases List.mem_filterMap.mp hf with ⟨u, _, hok⟩
  have hu : f.name = u := okField_name schema u f hok
  rw [hu] at hname
  rw [hname] at hok
  rw [hok] at hbad
  cases hbad

/-- C7: a per-column type-resolution error only drops that column: under a
panic-free schema the descriptor loop returns exactly the descriptors of
the resolvable titles in order, the failing title is absent from the
descriptor names, and `do_describe_portal` still answers the request with
those descriptors and caches the projected result. -/
theorem describe_skips_bad_column (engine : Engine) (schema : SchemaMap)
    (cache : List (String × GitQLObject)) (stmt : String)
    (groups res : GitQLObject) (hidden : List String) (t emsg : String)
    (hset : startsWithKw (strToLower stmt) "set".data = false)
    (hengine : engine (firstStatement stmt) = .selected groups hidden)
    (hproj : project groups hidden = some res)
    (hdom : ∀ u ∈ res.titles, (schema u).isSome)
    (_ht : t ∈ res.titles)
    (hbad : encode_column schema t 0 = some (.error emsg)) :
    ∃ fs, collectFields schema res.titles = some fs ∧
      fs = res.titles.filterMap (okField schema) ∧
      t ∉ fs.map FieldInfo.name ∧
      do_describe_portal engine schema cache stmt =
        some (.ok (fs, cacheInsert cache (firstStatement stmt) res)) := by
  have hfs : collectFields schema res.titles
      = some (res.titles.filterMap (okField schema)) :=
    collectFieldsFrom_eq schema res.titles 0 hdom
  have hok : okField schema t = none := by
    unfold okField
    rw [hbad]
  refine ⟨_, hfs, rfl, not_mem_filterMap_okField schema res.titles t hok, ?_⟩
  simp only [do_describe_portal, hset, Bool.false_eq_true, if_false,
    hengine, hproj, hfs]

/-- Concrete fixture for the C7 witness: a result whose second column has
the unmapped semantic type. -/
def objW2 : GitQLObject := ⟨["name", "odd"], [⟨[⟨[Value.Text "a", Value.Null]⟩]⟩]⟩

def engineW2 : Engine := fun _ => .selected objW2 []

/-- Witness for C7: with columns `name` (Text) and `odd` (unmapped),
describe answers with only the `name` descriptor and still caches the
result. -/
theorem describe_skips_bad_column_witness :
    ∃ fs, collectFields schemaW objW2.titles = some fs ∧
      fs = objW2.titles.filterMap (okField schemaW) ∧
      "odd" ∉ fs.map FieldInfo.name ∧
      do_describe_portal engineW2 schemaW [] "q" =
        some (.ok (fs, cacheInsert [] (firstStatement "q") objW2)) :=
  describe_skips_bad_column engineW2 schemaW [] "q" objW2 objW2 [] "odd"
    "Failed to get type of data" rfl rfl rfl
    (by decide) (by decide) rfl

/-- Projection of a handler result onto the affected-row count of an
acknowledgment response (and nothing else). -/
def ackRows : Option (Except String WireResponse) → Option Nat
  | some (.ok (.ack _ n)) => some n
  | _ => none

/-- C2 counterexample: Execute on the never-described statement `"q"` with
an empty cache answers an acknowledgment whose affected-row count is 1,
not the zero rows the claim states. -/
theorem execute_miss_rows_counterexample :
    ackRows (ext_do_query schemaW [] "q") = some 1 ∧
      ackRows (ext_do_query schemaW [] "q") ≠ some 0 := by
  constructor
  · rfl
  · intro h
    simp [ackRows, ext_do_query, cacheGet] at h

/-- C2 amended: Execute on a statement text missing from the cache returns
the acknowledgment `Tag::new("OK").with_rows(1)` — one affected row — and
never an error. -/
theorem execute_miss_acknowledges (schema : SchemaMap)
    (cache : List (String × GitQLObject)) (stmt : String)
    (hmiss : cacheGet cache stmt = none) :
    ext_do_query schema cache stmt = some (.ok (.ack "OK" 1)) := by
  unfold ext_do_query
  by_cases h : startsWithKw (strToLower stmt) "set".data = true <;>
    simp [h, hmiss]

/-- Witness for the amended C2 at the empty cache. -/
theorem execute_miss_acknowledges_witness :
    ext_do_query schemaW [] "q" = some (.ok (.ack "OK" 1)) :=
  execute_miss_acknowledges schemaW [] "q" rfl

/-- C1 counterexample: for the statement text `"q;x"` (which contains a
`';'`), Describe stores the projected result under the truncated text
`"q"`, so the subsequent Execute on the verbatim text `"q;x"` misses the
cache and answers the acknowledgment instead of the cached projected
result. -/
theorem describe_execute_key_counterexample :
    do_describe_portal engineW schemaW [] "q;x" =
        some (.ok ([⟨"name", .TEXT, .text⟩], [("q", objW)])) ∧
      ext_do_query schemaW [("q", objW)] "q;x" = some (.ok (.ack "OK" 1)) ∧
      firstStatement "q;x" ≠ "q;x" := by
  refine ⟨rfl, rfl, by decide⟩

/-- C1 amended: Describe stores the projected result under the statement
text truncated at the first `';'`; for a statement text containing no `';'`
(so the truncated text equals the verbatim text) a subsequent Execute on
that text reads exactly that cached projected result — re-deriving the same
field descriptors and encoding the cached rows — and, since `ext_do_query`
takes no engine at all, performs no new tokenization, parsing or
evaluation. -/
theorem describe_then_execute (engine : Engine) (schema : SchemaMap)
    (cache : List (String × GitQLObject)) (stmt : String)
    (groups res : GitQLObject) (hidden : List String) (fs : List FieldInfo)
    (hset : startsWithKw (strToLower stmt) "set".data = false)
    (hsemi : firstStatement stmt = stmt)
    (hengine : engine stmt = .selected groups hidden)
    (hproj : project groups hidden = some res)
    (hfs : collectFields schema res.titles = some fs)
    (hne : res.groups ≠ []) :
    do_describe_portal engine schema cache stmt =
        some (.ok (fs, cacheInsert cache stmt res)) ∧
      ∃ rows, encode_row res fs = some rows ∧
        ext_do_query schema (cacheInsert cache stmt res) stmt =
          some (.ok (.queryResp fs rows)) := by
  constructor
  · simp only [do_describe_portal, hset, Bool.false_eq_true, if_false,
      hsemi, hengine, hproj, hfs]
  · cases hgs : res.groups with
    | nil => exact absurd hgs hne
    | cons g0 rest =>
      refine ⟨g0.rows.map (fun r => r.values.map encodeValue), ?_, ?_⟩
      · simp [encode_row, hgs]
      · have hhit : cacheGet (cacheInsert cache stmt res) stmt = some res := by
          simp [cacheGet, cacheInsert]
        simp only [ext_do_query, hset, Bool.false_eq_true, if_false,
          hhit, hfs, encode_row, hgs]

/-- Witness for the amended C1: describe-then-execute on the `';'`-free
statement `"q"`. -/
theorem describe_then_execute_witness :
    do_describe_portal engineW schemaW [] "q" =
        some (.ok ([⟨"name", .TEXT, .text⟩], cacheInsert [] "q" objW)) ∧
      ∃ rows, encode_row objW [⟨"name", .TEXT, .text⟩] = some rows ∧
        ext_do_query schemaW (cacheInsert [] "q" objW) "q" =
          some (.ok (.queryResp [⟨"name", .TEXT, .text⟩] rows)) :=
  describe_then_execute engineW schemaW [] "q" objW objW []
    [⟨"name", .TEXT, .text⟩] rfl rfl rfl rfl rfl (by decide)

theorem splitSpaces_no_space (l : List Char) (h : ' ' ∉ l) :
    splitSpaces l = [l] := by
  induction l with
  | nil => rfl
  | cons c cs ih =>
    have hc : ¬ c = ' ' := fun hc => h (hc ▸ List.mem_cons_self c cs)
    have hcs : ' ' ∉ cs := fun hin => h (List.mem_cons_of_mem c hin)
    simp [splitSpaces, hc, ih hcs]

theorem splitSpaces_append_space (pre tail : List Char) (h : ' ' ∉ pre) :
    splitSpaces (pre ++ ' ' :: tail) = pre :: splitSpaces tail := by
  induction pre with
  | nil => simp [splitSpaces]
  | cons c pre' ih =>
    have hc : ¬ c = ' ' := fun hc => h (hc ▸ List.mem_cons_self c pre')
    have hpre : ' ' ∉ pre' := fun hin => h (List.mem_cons_of_mem c hin)
    simp [splitSpaces, hc, ih hpre]

/-- C6: `make_qeury` resolves a space-separated token `$s` (digits `s`
parsing to `n`) by textual substitution of the portal's parameter `n - 1`
into the statement — plain tokens pass through unchanged around it — and an
out-of-range index (`n` beyond the parameter list, or the `$0` underflow)
aborts the substitution with no result. -/
theorem make_qeury_substitutes (params : List (Option String)) (s : List Char)
    (n : Nat) (hparse : parseUsize s = some n) (hsp : ' ' ∉ s) :
    (∀ p, 1 ≤ n → params[n - 1]? = some (some p) →
      make_qeury params ⟨'$' :: s⟩ = some (p ++ " ")) ∧
    (params.length < n ∨ n = 0 → make_qeury params ⟨'$' :: s⟩ = none) ∧
    (∀ (pre : List Char) (p : String), pre ≠ [] → '$' ∉ pre → ' ' ∉ pre →
      1 ≤ n → params[n - 1]? = some (some p) →
      make_qeury params ⟨pre ++ ' ' :: '$' :: s⟩ =
        some ((⟨pre⟩ : String) ++ " " ++ (p ++ " "))) := by
  have hdollar : ' ' ∉ '$' :: s := by
    intro hin
    rcases List.mem_cons.mp hin with hin | hin
    · cases hin
    · exact hsp hin
  have hsingle : ∀ p, 1 ≤ n → params[n - 1]? = some (some p) →
      substTokens params [('$' :: s)] = some (p ++ " ") := by
    intro p h1 hp
    have hn0 : ¬ n = 0 := by omega
    simp [substTokens, hparse, hn0, get_param, hp]
  refine ⟨?_, ?_, ?_⟩
  · intro p h1 hp
    unfold make_qeury
    rw [show (⟨'$' :: s⟩ : String).data = '$' :: s from rfl,
      splitSpaces_no_space _ hdollar]
    exact hsingle p h1 hp
  · intro hmiss
    unfold make_qeury
    rw [show (⟨'$' :: s⟩ : String).data = '$' :: s from rfl,
      splitSpaces_no_space _ hdollar]
    rcases Nat.eq_zero_or_pos n with hn0 | hpos
    · simp [substTokens, hparse, hn0]
    · have hn0 : ¬ n = 0 := by omega
      have hnone : params[n - 1]? = none := by
        apply List.getElem?_eq_none
        omega
      simp [substTokens, hparse, hn0, get_param, hnone]
  · intro pre p hne hd hsp' h1 hp
    unfold make_qeury
    rw [show (⟨pre ++ ' ' :: '$' :: s⟩ : String).data = pre ++ ' ' :: '$' :: s
        from rfl,
      splitSpaces_append_space pre _ hsp',
      splitSpaces_no_space _ hdollar]
    cases pre with
    | nil => exact absurd rfl hne
    | cons c0 pre' =>
      have hc0 : ¬ c0 = '$' := fun hc =>
        hd (hc ▸ List.mem_cons_self c0 pre')
      rw [show substTokens params ((c0 :: pre') :: [('$' :: s)]) =
          match substTokens params [('$' :: s)] with
          | none => none
          | some r => some ((⟨c0 :: pre'⟩ : String) ++ " " ++ r)
        from by simp [substTokens, hc0]]
      rw [hsingle p h1 hp]

/-- Witness for C6: with one bound parameter `"v"`, the statement
`"a $1"` becomes `"a v "`, and `"$2"` (out of range) and `"$0"`
(underflow) abort. -/
theorem make_qeury_substitutes_witness :
    make_qeury [some "v"] ⟨'a' :: ' ' :: '$' :: ['1']⟩ =
        some ((⟨['a']⟩ : String) ++ " " ++ ("v" ++ " ")) ∧
      make_qeury [some "v"] ⟨'$' :: ['2']⟩ = none ∧
      make_qeury [some "v"] ⟨'$' :: ['0']⟩ = none := by
  refine ⟨?_, ?_, ?_⟩
  · exact (make_qeury_substitutes [some "v"] ['1'] 1 rfl (by decide)).2.2
      ['a'] "v" (by decide) (by decide) (by decide) (by decide) rfl
  · exact (make_qeury_substitutes [some "v"] ['2'] 2 rfl (by decide)).2.1
      (Or.inl (by decide))
  · exact (make_qeury_substitutes [some "v"] ['0'] 0 rfl (by decide)).2.1
      (Or.inr rfl)

theorem data_append_semi (s t : String) :
    (s ++ ";" ++ t).data = s.data ++ ';' :: t.data := by
  rw [String.data_append, String.data_append,
    show (";" : String).data = [';'] from rfl, List.append_assoc]
  rfl

theorem takeUntilSemi_append (s t : List Char) (h : ';' ∉ s) :
    takeUntilSemi (s ++ ';' :: t) = s := by
  induction s with
  | nil => simp [takeUntilSemi]
  | cons c cs ih =>
    have hc : ¬ c = ';' := fun hc => h (hc ▸ List.mem_cons_self c cs)
    have hcs : ';' ∉ cs := fun hin => h (List.mem_cons_of_mem c hin)
    simp [takeUntilSemi, hc, ih hcs]

theorem firstStatement_append (s t : String) (h : ';' ∉ s.data) :
    firstStatement (s ++ ";" ++ t) = s := by
  unfold firstStatement
  rw [data_append_semi, takeUntilSemi_append s.data t.data h]

theorem isPrefixOf_append_semi (p : List Char) :
    ∀ (l r : List Char), ';' ∉ p → ';' ∉ l →
      p.isPrefixOf (l ++ ';' :: r) = p.isPrefixOf l := by
  induction p with
  | nil => intro l r _ _; simp [List.isPrefixOf]
  | cons c p' ih =>
    intro l r hp hl
    have hc : ¬ c = ';' := fun hc => hp (hc ▸ List.mem_cons_self c p')
    have hp' : ';' ∉ p' := fun hin => hp (List.mem_cons_of_mem c hin)
    cases l with
    | nil => simp [List.isPrefixOf, hc]
    | cons a l' =>
      have hl' : ';' ∉ l' := fun hin => hl (List.mem_cons_of_mem a hin)
      simp [List.isPrefixOf, ih l' r hp' hl']

theorem toUpper_eq_semi (c : Char) (h : c.toUpper = ';') : c = ';' := by
  unfold Char.toUpper at h
  by_cases hc : c.toNat ≥ 97 ∧ c.toNat ≤ 122
  · exfalso
    rw [if_pos hc] at h
    have hm : (Char.ofNat (c.toNat - 32)).toNat = c.toNat - 32 := by
      have hv : (c.toNat - 32).isValidChar := Or.inl (by omega)
      simp [Char.ofNat, hv]
      rfl
    rw [h] at hm
    have hsemi : (';' : Char).toNat = 59 := rfl
    omega
  · rwa [if_neg hc] at h

theorem strToUpper_append_semi (s t : String) :
    strToUpper (s ++ ";" ++ t)
      = (s.data.map Char.toUpper) ++ ';' :: (t.data.map Char.toUpper) := by
  unfold strToUpper
  rw [data_append_semi]
  simp [show (';' : Char).toUpper = ';' from rfl]

theorem dealloc_flag_ignores_tail (s t : String) (hs : ';' ∉ s.data) :
    startsWithKw (strToUpper (s ++ ";" ++ t)) "DEALLOCATE".data
      = startsWithKw (strToUpper s) "DEALLOCATE".data := by
  have hmap : ';' ∉ s.data.map Char.toUpper := by
    intro hin
    rcases List.mem_map.mp hin with ⟨c, hc, hup⟩
    exact hs (toUpper_eq_semi c hup ▸ hc)
  unfold startsWithKw
  rw [strToUpper_append_semi,
    isPrefixOf_append_semi "DEALLOCATE".data _ _ (by decide) hmap]
  rfl

/-- C8: on the simple-query path the statement text is truncated at the
first `';'` before it reaches the tokenizer (`simple_do_query` hands the
engine exactly `firstStatement q`), so text after the first `';'` never
influences the response: two queries sharing the part before the first
`';'` get identical responses, whatever follows. -/
theorem simple_query_truncates (engine : Engine) (schema : SchemaMap)
    (s u₁ u₂ : String) (hs : ';' ∉ s.data) :
    firstStatement (s ++ ";" ++ u₁) = s ∧
      simple_do_query engine schema (s ++ ";" ++ u₁) =
        simple_do_query engine schema (s ++ ";" ++ u₂) := by
  have hf₁ := firstStatement_append s u₁ hs
  have hf₂ := firstStatement_append s u₂ hs
  have hd₁ := dealloc_flag_ignores_tail s u₁ hs
  have hd₂ := dealloc_flag_ignores_tail s u₂ hs
  refine ⟨hf₁, ?_⟩
  unfold simple_do_query
  rw [hf₁, hf₂, hd₁, hd₂]

/-- Witness for C8: the batch `"q;x"` and the batch `"q;yy"` answer
identically, and both truncate to `"q"`. -/
theorem simple_query_truncates_witness :
    firstStatement ("q" ++ ";" ++ "x") = "q" ∧
      simple_do_query engineW schemaW ("q" ++ ";" ++ "x") =
        simple_do_query engineW schemaW ("q" ++ ";" ++ "yy") :=
  simple_query_truncates engineW schemaW "q" "x" "yy" (by decide)

end GQLServer
